import Mathlib

/-!
Verification of the request-queue and media-state protocols of the
vidstack/elements media-player library.

The development shallowly embeds:

* the keyed `RequestQueue` (mode flag, keyed pending map, flush waiters),
  modelled from the specification because the class itself ships outside the
  available sources (only its unit tests and its callers are available);
* the Map-based request queue of the core `MediaProviderElement`
  (`makeRequest` / `safelyMakeRequest` / `flushRequestQueue`), embedded from
  the source;
* the media context soft-reset (`_softResetMediaContext` and
  `_getMediaPropsToResetWhenSrcChanges`) and the source-change handler
  (`_handleMediaSrcChange`) of the media `MediaProviderElement`, embedded from
  the source;
* the writable store (`set` / `subscribe`), modelled from the specification
  because the store module ships outside the available sources;
* `HlsElement.canPlayType`, embedded from the source.

Callbacks and actions are identified by natural numbers; an operation returns,
besides the successor state, an output log recording which actions were invoked
and which waiters were released, so that temporal claims about invocation and
release become statements about logs.
-/

namespace Vidstack

namespace RQ

/-- Modelled from the spec: the RequestQueue class (imported from the base
queue module) is not present under the available sources; only its unit tests
and callers are. Fields: the pass-through mode flag `serveImmediately`
(false = queuing mode), the terminal `destroyed` flag, the insertion-ordered
keyed `pending` map (a JS Map from request key to action identifier), the
identifiers of pending `waitForFlush` waiters, and a counter supplying fresh
waiter identifiers. -/
structure QState where
  serveImmediately : Bool
  destroyed : Bool
  pending : List (String × Nat)
  waiters : List Nat
  counter : Nat
deriving Repr, DecidableEq

/-- The operations of the RequestQueue public contract. -/
inductive Op where
  | queueOp (k : String) (a : Nat)
  | start
  | stop
  | serve (k : String)
  | reset
  | destroy
  | waitFlush
deriving Repr, DecidableEq

/-- Observable output of one operation: the actions invoked (in order), the
waiter identifiers released, and the waiter identifier registered by a
`waitForFlush` that did not resolve immediately. -/
structure Output where
  invoked : List Nat
  released : List Nat
  registered : Option Nat
deriving Repr, DecidableEq

/-- The empty output: nothing invoked, released or registered. -/
def Output.none : Output := ⟨[], [], Option.none⟩

/-- JS-Map insertion: overwrite the value in place when the key is present
(the entry keeps its original position, as in a JavaScript Map), otherwise
append the new entry at the end. -/
def mapSet (l : List (String × Nat)) (k : String) (a : Nat) : List (String × Nat) :=
  match l with
  | [] => [(k, a)]
  | (k₁, a₁) :: rest => if k₁ = k then (k, a) :: rest else (k₁, a₁) :: mapSet rest k a

/-- JS-Map lookup by key. -/
def qlookup (k : String) : List (String × Nat) → Option Nat
  | [] => Option.none
  | (k₁, a₁) :: rest => if k₁ = k then some a₁ else qlookup k rest

/-- JS-Map deletion by key. -/
def eraseKey (k : String) (l : List (String × Nat)) : List (String × Nat) :=
  l.filter (fun p => ¬ p.1 = k)

/-- Modelled from the spec: one step of the RequestQueue contract.
`queue` overwrites per key while queuing, invokes immediately in pass-through
mode; `start` flips to pass-through mode, invokes all pending actions in
insertion order, clears the map and releases all waiters; `stop` flips back to
queuing mode leaving pending entries untouched; `serve` invokes and removes a
single pending action by key; `reset` discards pending actions without
invoking them, mode untouched; `destroy` discards pending actions, releases
all waiters and is terminal (further operations are safe no-ops);
`waitForFlush` resolves immediately when already serving or destroyed,
otherwise registers a fresh waiter. -/
def step (s : QState) : Op → QState × Output
  | .queueOp k a =>
      if s.destroyed then (s, Output.none)
      else if s.serveImmediately then (s, ⟨[a], [], Option.none⟩)
      else ({ s with pending := mapSet s.pending k a }, Output.none)
  | .start =>
      if s.destroyed then (s, Output.none)
      else ({ s with serveImmediately := true, pending := [], waiters := [] },
            ⟨s.pending.map Prod.snd, s.waiters, Option.none⟩)
  | .stop =>
      if s.destroyed then (s, Output.none)
      else ({ s with serveImmediately := false }, Output.none)
  | .serve k =>
      if s.destroyed then (s, Output.none)
      else
        match qlookup k s.pending with
        | some a => ({ s with pending := eraseKey k s.pending }, ⟨[a], [], Option.none⟩)
        | Option.none => (s, Output.none)
  | .reset =>
      if s.destroyed then (s, Output.none)
      else ({ s with pending := [] }, Output.none)
  | .destroy =>
      ({ s with destroyed := true, pending := [], waiters := [] },
       ⟨[], s.waiters, Option.none⟩)
  | .waitFlush =>
      if s.destroyed || s.serveImmediately then (s, Output.none)
      else ({ s with waiters := s.waiters ++ [s.counter], counter := s.counter + 1 },
            ⟨[], [], some s.counter⟩)

/-- Run a list of operations, returning the final state. -/
def exec (s : QState) : List Op → QState
  | [] => s
  | o :: rest => exec (step s o).1 rest

/-- All waiter identifiers released while running a list of operations. -/
def releasedAll (s : QState) : List Op → List Nat
  | [] => []
  | o :: rest => (step s o).2.released ++ releasedAll (step s o).1 rest

/-- All actions invoked while running a list of operations, in order. -/
def invokedAll (s : QState) : List Op → List Nat
  | [] => []
  | o :: rest => (step s o).2.invoked ++ invokedAll (step s o).1 rest

/-- The queue size: the number of pending (not-yet-invoked) actions. -/
def size (s : QState) : Nat := s.pending.length

/-- The pending keys are pairwise distinct (at most one callback per key). -/
def keysNodup (s : QState) : Prop := (s.pending.map Prod.fst).Nodup

instance : DecidablePred keysNodup := fun s =>
  inferInstanceAs (Decidable ((s.pending.map Prod.fst).Nodup))

/-- Operations that keep a pass-through window open: everything except `stop`
and `reset` (which close the window per the invariant) and `destroy` (the
terminal teardown of the queue). -/
def windowOp : Op → Bool
  | .stop => false
  | .reset => false
  | .destroy => false
  | _ => true

/-- Waiter invariant: the pending waiter identifiers are pairwise distinct
and all below the freshness counter. -/
def winv (s : QState) : Prop :=
  s.waiters.Nodup ∧ ∀ w ∈ s.waiters, w < s.counter

end RQ

namespace CP

/-- Outcome of invoking a queued request action: it either completes normally
or throws/rejects with an error value. -/
inductive Outcome where
  | ok
  | err (e : Nat)
deriving Repr, DecidableEq

/-- State of the request machinery of the core MediaProviderElement, embedded
from the source: the keyed request queue (a JS Map from request key to action
identifier), the context error field, the log of dispatched VdsErrorEvents and
the log of invoked actions (in invocation order). -/
structure PState where
  requestQueue : List (String × Nat)
  ctxError : Option Nat
  errorEvents : List Nat
  invoked : List Nat
deriving Repr, DecidableEq

/-- Embedded from safelyMakeRequest: invoke the queued action for the key (if
any) inside try/catch — a thrown or rejected error is recorded into the
context error field and dispatched as a VdsErrorEvent, and is not re-thrown —
then delete the key from the queue. The try/catch is embedded by the match on
the action outcome; the behaviour of each action is the parameter `beh`. -/
def safelyMakeRequest (beh : Nat → Outcome) (s : PState) (k : String) : PState :=
  match RQ.qlookup k s.requestQueue with
  | Option.none => { s with requestQueue := RQ.eraseKey k s.requestQueue }
  | some a =>
      let s₁ := { s with invoked := s.invoked ++ [a] }
      let s₂ :=
        match beh a with
        | .ok => s₁
        | .err e => { s₁ with ctxError := some e, errorEvents := s₁.errorEvents ++ [e] }
      { s₂ with requestQueue := RQ.eraseKey k s₂.requestQueue }

/-- Embedded from flushRequestQueue: snapshot the queued request keys, safely
make each request, then clear the queue. The `Promise.all` over the snapshot
is embedded as a left fold in key order (each request body runs its action
synchronously before yielding). -/
def flushRequestQueue (beh : Nat → Outcome) (s : PState) : PState :=
  let s₁ := (s.requestQueue.map Prod.fst).foldl (safelyMakeRequest beh) s
  { s₁ with requestQueue := [] }

/-- Embedded from makeRequest: insert or overwrite the action under its
request key; when the provider cannot play yet, stop there; otherwise safely
make the request immediately and delete the key. -/
def makeRequest (beh : Nat → Outcome) (canPlay : Bool) (s : PState)
    (k : String) (a : Nat) : PState :=
  let s₁ := { s with requestQueue := RQ.mapSet s.requestQueue k a }
  if canPlay then
    let s₂ := safelyMakeRequest beh s₁ k
    { s₂ with requestQueue := RQ.eraseKey k s₂.requestQueue }
  else s₁

/-- The errors produced by a list of actions, in invocation order. -/
def errsOf (beh : Nat → Outcome) (l : List Nat) : List Nat :=
  l.filterMap fun a =>
    match beh a with
    | .ok => Option.none
    | .err e => some e

end CP

namespace Media

/-- Values stored in the media context record. NaN is represented as an
explicit constructor so that the duration default is decidably comparable
(in the source it is the JavaScript NaN double). -/
inductive MVal where
  | nan
  | num (q : ℚ)
  | flag (b : Bool)
  | str (s : String)
  | ranges (l : List (ℚ × ℚ))
deriving DecidableEq

/-- Embedded from _getMediaPropsToResetWhenSrcChanges: the media context
properties whose value is tied to the current media resource and is reset
when the source changes. The source literal lists "canPlay" twice; the JS Set
collapses the duplicate, and here membership in the list does the same. -/
def mediaPropsToResetWhenSrcChanges : List String :=
  ["buffered", "buffering", "canPlay", "canPlayThrough", "currentSrc",
   "currentTime", "duration", "ended", "mediaType", "paused", "canPlay",
   "played", "playing", "seekable", "seeking", "started", "waiting"]

/-- Modelled from the spec: the media context record module (the
`mediaContext` record of per-property defaults) is not under the available
sources; its keys are the per-source properties above plus the session-level
properties named by the specification. -/
def mediaContextKeys : List String :=
  mediaPropsToResetWhenSrcChanges ++
    ["autoplay", "controls", "loop", "playsinline", "volume", "muted",
     "fullscreen", "viewType", "error"]

/-- Modelled from the spec: the initial/default value of each media context
property; the duration default is NaN and the session-level defaults follow
the usual media-element defaults (volume 1, everything else off/empty). -/
def initialValue : String → MVal
  | "buffered" => .ranges []
  | "played" => .ranges []
  | "seekable" => .ranges []
  | "currentSrc" => .str ""
  | "mediaType" => .str "unknown"
  | "viewType" => .str "unknown"
  | "duration" => .nan
  | "currentTime" => .num 0
  | "volume" => .num 1
  | "paused" => .flag true
  | _ => .flag false

/-- Embedded from _softResetMediaContext: walk the keys of the media context
record and set every property in the reset set back to its initial value,
leaving every other property untouched. -/
def softResetMediaContext (ctx : String → MVal) : String → MVal :=
  fun p =>
    if p ∈ mediaContextKeys ∧ p ∈ mediaPropsToResetWhenSrcChanges then initialValue p
    else ctx p

/-- State of the media MediaProviderElement glue, embedded from the source:
the has-flushed-once flag, the media request queue and the media context
record. -/
structure MPState where
  hasFlushedMediaRequestQueueOnce : Bool
  mediaRequestQueue : RQ.QState
  ctx : String → MVal

/-- Embedded from _handleMediaSrcChange: the first source change per
connection cycle only sets the has-flushed-once flag (so the initially queued
property assignments reach the provider); every later source change leaves
pass-through mode, resets the request queue and soft-resets the media
context. The second component is the observable output of the queue reset
step. -/
def handleMediaSrcChange (s : MPState) : MPState × RQ.Output :=
  if s.hasFlushedMediaRequestQueueOnce = false then
    ({ s with hasFlushedMediaRequestQueueOnce := true }, RQ.Output.none)
  else
    let q₁ := { s.mediaRequestQueue with serveImmediately := false }
    ({ s with mediaRequestQueue := (RQ.step q₁ .reset).1,
              ctx := softResetMediaContext s.ctx },
     (RQ.step q₁ .reset).2)

/-- Embedded from disconnectedCallback: destroy the media request queue and
clear the has-flushed-once flag, re-arming the first-change skip for the next
connection cycle. -/
def disconnectedCallback (s : MPState) : MPState × RQ.Output :=
  (({ s with mediaRequestQueue := (RQ.step s.mediaRequestQueue .destroy).1,
             hasFlushedMediaRequestQueueOnce := false }),
   (RQ.step s.mediaRequestQueue .destroy).2)

end Media

namespace Store

/-- Modelled from the spec: the writable store module (ported from Svelte) is
not under the available sources; only its unit tests and its consumers are. A
store field holds the current value, the insertion-ordered subscriber
identifiers, and a counter supplying fresh subscriber identifiers.
Notifications are recorded as (subscriber, value) pairs in an output log. -/
structure SStore (T : Type) where
  value : T
  subs : List Nat
  counter : Nat

/-- Modelled from the spec: `subscribe` registers a listener and invokes it
once immediately with the current value; the result carries the new state,
the fresh subscriber identifier and the notification log of the call. -/
def subscribe {T : Type} (s : SStore T) : SStore T × Nat × List (Nat × T) :=
  ({ s with subs := s.subs ++ [s.counter], counter := s.counter + 1 },
   s.counter, [(s.counter, s.value)])

/-- Modelled from the spec: `set` with a value equal to the current one (by
equality) notifies nobody and changes nothing; a changed value is stored and
every subscriber is notified synchronously in subscription order. -/
def setValue {T : Type} [DecidableEq T] (s : SStore T) (v : T) :
    SStore T × List (Nat × T) :=
  if s.value = v then (s, [])
  else ({ s with value := v }, s.subs.map fun i => (i, v))

/-- Modelled from the spec: the disposer returned by `subscribe` removes the
listener. -/
def unsubscribe {T : Type} (s : SStore T) (i : Nat) : SStore T :=
  { s with subs := s.subs.filter fun j => ¬ j = i }

/-- Store operations, for statements over operation sequences. -/
inductive SOp (T : Type) where
  | setOp (v : T)
  | subOp
  | unsubOp (i : Nat)

/-- One store operation step, returning the notification log of the call. -/
def sstep {T : Type} [DecidableEq T] (s : SStore T) : SOp T → SStore T × List (Nat × T)
  | .setOp v => setValue s v
  | .subOp => ((subscribe s).1, (subscribe s).2.2)
  | .unsubOp i => (unsubscribe s i, [])

/-- Run a list of store operations, returning the final state. -/
def sexec {T : Type} [DecidableEq T] (s : SStore T) : List (SOp T) → SStore T
  | [] => s
  | o :: rest => sexec (sstep s o).1 rest

end Store

namespace Hls

/-- Embedded from the CanPlay enum of the media module. -/
inductive CanPlay where
  | no
  | maybe
  | probably
deriving Repr, DecidableEq

/-- Embedded from the source: the set of HLS MIME types. -/
def HLS_TYPES : List String :=
  ["application/x-mpegURL", "application/vnd.apple.mpegurl"]

/-- Embedded from HlsElement.canPlayType: when the type is an HLS MIME type,
the source evaluates the conditional expression
`this.isHlsSupported ? CanPlay.Probably : CanPlay.No` as a bare expression
statement — there is no return — so its value is discarded (kept here as a
dead let binding); in every case the method returns the inherited
VideoElement result for the type. -/
def hlsCanPlayType (superCanPlayType : String → CanPlay) (isHlsSupported : Bool)
    (t : String) : CanPlay :=
  let _discarded : Option CanPlay :=
    if t ∈ HLS_TYPES then
      some (if isHlsSupported then CanPlay.probably else CanPlay.no)
    else Option.none
  superCanPlayType t

end Hls

-- ===END-OF-DEFINITIONS=== (further models are inserted above this line)

namespace RQ

theorem keys_mapSet (l : List (String × Nat)) (k : String) (a : Nat) :
    (mapSet l k a).map Prod.fst =
      if k ∈ l.map Prod.fst then l.map Prod.fst else l.map Prod.fst ++ [k] := by
  induction l with
  | nil => simp [mapSet]
  | cons hd tl ih =>
    obtain ⟨k₁, a₁⟩ := hd
    by_cases hk : k₁ = k
    · subst hk
      simp [mapSet]
    · simp only [mapSet, if_neg hk, List.map_cons, ih]
      have hne : ¬ k = k₁ := fun h => hk h.symm
      by_cases hmem : k ∈ tl.map Prod.fst
      · simp [hmem, hne]
      · simp [hmem, hne]

theorem keysNodup_mapSet (l : List (String × Nat)) (k : String) (a : Nat)
    (h : (l.map Prod.fst).Nodup) : ((mapSet l k a).map Prod.fst).Nodup := by
  rw [keys_mapSet]
  by_cases hmem : k ∈ l.map Prod.fst
  · simpa [hmem] using h
  · simp only [if_neg hmem]
    exact List.Nodup.append h (List.nodup_singleton k)
      (by simpa [List.disjoint_singleton] using hmem)

theorem mapSet_mapSet (l : List (String × Nat)) (k : String) (a b : Nat) :
    mapSet (mapSet l k a) k b = mapSet l k b := by
  induction l with
  | nil => simp [mapSet]
  | cons hd tl ih =>
    obtain ⟨k₁, a₁⟩ := hd
    by_cases hk : k₁ = k
    · subst hk
      simp [mapSet]
    · simp [mapSet, hk, ih]

theorem qlookup_mapSet_self (l : List (String × Nat)) (k : String) (a : Nat) :
    qlookup k (mapSet l k a) = some a := by
  induction l with
  | nil => simp [mapSet, qlookup]
  | cons hd tl ih =>
    obtain ⟨k₁, a₁⟩ := hd
    by_cases hk : k₁ = k
    · subst hk
      simp [mapSet, qlookup]
    · simp [mapSet, qlookup, hk, ih]

theorem snd_mem_mapSet (l : List (String × Nat)) (k : String) (a x : Nat)
    (hx : x ∈ (mapSet l k a).map Prod.snd) : x = a ∨ x ∈ l.map Prod.snd := by
  induction l with
  | nil => simpa [mapSet] using hx
  | cons hd tl ih =>
    obtain ⟨k₁, a₁⟩ := hd
    by_cases hk : k₁ = k
    · subst hk
      rcases (by simpa [mapSet] using hx : x = a ∨ x ∈ tl.map Prod.snd) with h | h
      · exact Or.inl h
      · exact Or.inr (by simp [h])
    · rcases (by simpa [mapSet, hk] using hx : x = a₁ ∨ x ∈ (mapSet tl k a).map Prod.snd)
        with h | h
      · exact Or.inr (by simp [h])
      · rcases ih h with h₁ | h₁
        · exact Or.inl h₁
        · exact Or.inr (by simp [h₁])

theorem count_snd_mapSet_self (l : List (String × Nat)) (k : String) (a : Nat)
    (ha : a ∉ l.map Prod.snd) : ((mapSet l k a).map Prod.snd).count a = 1 := by
  induction l with
  | nil => simp [mapSet]
  | cons hd tl ih =>
    obtain ⟨k₁, a₁⟩ := hd
    have ha₁ : a₁ ≠ a := by
      intro h
      exact ha (by simp [h])
    have hatl : a ∉ tl.map Prod.snd := fun h => ha (by simp [h])
    by_cases hk : k₁ = k
    · subst hk
      have : (tl.map Prod.snd).count a = 0 := List.count_eq_zero.mpr hatl
      simp [mapSet, List.count_cons, this]
    · have := ih hatl
      simp [mapSet, hk, List.count_cons, this, ha₁]

theorem mapSet_not_mem (l : List (String × Nat)) (k : String) (a : Nat)
    (h : k ∉ l.map Prod.fst) : mapSet l k a = l ++ [(k, a)] := by
  induction l with
  | nil => simp [mapSet]
  | cons hd tl ih =>
    obtain ⟨k₁, a₁⟩ := hd
    have hk : k₁ ≠ k := by
      intro hk
      exact h (by simp [hk])
    have htl : k ∉ tl.map Prod.fst := fun hm => h (by simp [hm])
    simp [mapSet, hk, ih htl]

/-- Running a block of queue operations with keys fresh for the pending map
and pairwise distinct, while in queuing mode, appends the entries in order and
invokes nothing. -/
theorem exec_queueAll (kas : List (String × Nat)) (s : QState)
    (hmode : s.serveImmediately = false) (hdes : s.destroyed = false)
    (hfresh : ∀ k ∈ kas.map Prod.fst, k ∉ s.pending.map Prod.fst)
    (hnodup : (kas.map Prod.fst).Nodup) :
    exec s (kas.map fun p => Op.queueOp p.1 p.2) = { s with pending := s.pending ++ kas } ∧
    invokedAll s (kas.map fun p => Op.queueOp p.1 p.2) = [] := by
  induction kas generalizing s with
  | nil => simp [exec, invokedAll]
  | cons hd tl ih =>
    obtain ⟨k, a⟩ := hd
    have hkfresh : k ∉ s.pending.map Prod.fst := hfresh k (by simp)
    have hstep : step s (.queueOp k a) =
        ({ s with pending := s.pending ++ [(k, a)] }, Output.none) := by
      simp [step, hmode, hdes, mapSet_not_mem s.pending k a hkfresh]
    have hnodup₀ : (k :: tl.map Prod.fst).Nodup := by simpa using hnodup
    have hknotin : k ∉ tl.map Prod.fst := (List.nodup_cons.mp hnodup₀).1
    have hnodup' : (tl.map Prod.fst).Nodup := (List.nodup_cons.mp hnodup₀).2
    have hfresh' : ∀ k₁ ∈ tl.map Prod.fst,
        k₁ ∉ (s.pending ++ [(k, a)]).map Prod.fst := by
      intro k₁ hk₁
      have h₁ : k₁ ∉ s.pending.map Prod.fst := hfresh k₁ (by simp [hk₁])
      have h₂ : k₁ ≠ k := by
        intro h
        subst h
        exact hknotin hk₁
      simp [h₁, h₂]
    have := ih { s with pending := s.pending ++ [(k, a)] } hmode hdes hfresh' hnodup'
    refine ⟨?_, ?_⟩
    · simp only [List.map_cons, exec, hstep]
      rw [this.1]
      simp
    · simp only [List.map_cons, invokedAll, hstep]
      rw [this.2]
      simp [Output.none]

theorem step_passthrough (s : QState) (o : Op)
    (h₁ : s.serveImmediately = true) (h₂ : s.destroyed = false)
    (h₃ : s.pending = []) (hw : windowOp o = true) :
    (step s o).1.serveImmediately = true ∧ (step s o).1.destroyed = false ∧
      (step s o).1.pending = [] := by
  cases o with
  | queueOp k a => simp [step, h₁, h₂, h₃]
  | start => simp [step, h₁, h₂, h₃]
  | stop => simp [windowOp] at hw
  | serve k => simp [step, h₁, h₂, h₃, qlookup]
  | reset => simp [windowOp] at hw
  | destroy => simp [windowOp] at hw
  | waitFlush => simp [step, h₁, h₂, h₃]

theorem step_queue_passthrough (t : QState) (k : String) (a : Nat)
    (h₁ : t.serveImmediately = true) (h₂ : t.destroyed = false) :
    step t (.queueOp k a) = (t, ⟨[a], [], Option.none⟩) := by
  simp [step, h₁, h₂]

theorem exec_passthrough (ops : List Op) (s : QState)
    (h₁ : s.serveImmediately = true) (h₂ : s.destroyed = false)
    (h₃ : s.pending = []) (hw : ∀ o ∈ ops, windowOp o = true) :
    (exec s ops).serveImmediately = true ∧ (exec s ops).destroyed = false ∧
      (exec s ops).pending = [] := by
  induction ops generalizing s with
  | nil => exact ⟨h₁, h₂, h₃⟩
  | cons o rest ih =>
    obtain ⟨g₁, g₂, g₃⟩ := step_passthrough s o h₁ h₂ h₃ (hw o (by simp))
    exact ih (step s o).1 g₁ g₂ g₃ (fun o₁ ho₁ => hw o₁ (by simp [ho₁]))

theorem step_not_destroy_destroyed (s : QState) (o : Op) (ho : o ≠ Op.destroy)
    (h : s.destroyed = false) : (step s o).1.destroyed = false := by
  cases o with
  | queueOp k a =>
    by_cases hm : s.serveImmediately <;> simp [step, h, hm]
  | start => simp [step, h]
  | stop => simp [step, h]
  | serve k =>
    cases hq : qlookup k s.pending <;> simp [step, h, hq]
  | reset => simp [step, h]
  | destroy => exact absurd rfl ho
  | waitFlush =>
    by_cases hm : s.serveImmediately <;> simp [step, h, hm]

theorem step_no_release (s : QState) (o : Op)
    (h₁ : o ≠ Op.start) (h₂ : o ≠ Op.destroy) : (step s o).2.released = [] := by
  cases o with
  | queueOp k a =>
    by_cases hd : s.destroyed <;> by_cases hm : s.serveImmediately <;>
      simp [step, hd, hm, Output.none]
  | start => exact absurd rfl h₁
  | stop => by_cases hd : s.destroyed <;> simp [step, hd, Output.none]
  | serve k =>
    by_cases hd : s.destroyed
    · simp [step, hd, Output.none]
    · cases hq : qlookup k s.pending <;> simp [step, hd, hq, Output.none]
  | reset => by_cases hd : s.destroyed <;> simp [step, hd, Output.none]
  | destroy => exact absurd rfl h₂
  | waitFlush =>
    by_cases hd : s.destroyed <;> by_cases hm : s.serveImmediately <;>
      simp [step, hd, hm, Output.none]

theorem step_keeps_waiter (s : QState) (o : Op) (w : Nat)
    (h₁ : o ≠ Op.start) (h₂ : o ≠ Op.destroy) (hw : w ∈ s.waiters) :
    w ∈ (step s o).1.waiters := by
  cases o with
  | queueOp k a =>
    by_cases hd : s.destroyed <;> by_cases hm : s.serveImmediately <;>
      simp [step, hd, hm, hw]
  | start => exact absurd rfl h₁
  | stop => by_cases hd : s.destroyed <;> simp [step, hd, hw]
  | serve k =>
    by_cases hd : s.destroyed
    · simp [step, hd, hw]
    · cases hq : qlookup k s.pending <;> simp [step, hd, hq, hw]
  | reset => by_cases hd : s.destroyed <;> simp [step, hd, hw]
  | destroy => exact absurd rfl h₂
  | waitFlush =>
    by_cases hd : s.destroyed <;> by_cases hm : s.serveImmediately <;>
      simp [step, hd, hm, hw]

set_option linter.unnecessarySeqFocus false in
theorem step_winv (s : QState) (o : Op) (h : winv s) :
    winv (step s o).1 ∧ s.counter ≤ (step s o).1.counter := by
  obtain ⟨hnd, hlt⟩ := h
  cases o with
  | queueOp k a =>
    by_cases hd : s.destroyed <;> by_cases hm : s.serveImmediately <;>
      simp [step, hd, hm, winv] <;> exact ⟨hnd, hlt⟩
  | start =>
    by_cases hd : s.destroyed <;> simp [step, hd, winv] <;> exact ⟨hnd, hlt⟩
  | stop =>
    by_cases hd : s.destroyed <;> simp [step, hd, winv] <;> exact ⟨hnd, hlt⟩
  | serve k =>
    by_cases hd : s.destroyed
    · simp [step, hd, winv]
      exact ⟨hnd, hlt⟩
    · cases hq : qlookup k s.pending <;> simp [step, hd, hq, winv] <;> exact ⟨hnd, hlt⟩
  | reset =>
    by_cases hd : s.destroyed <;> simp [step, hd, winv] <;> exact ⟨hnd, hlt⟩
  | destroy => simp [step, winv]
  | waitFlush =>
    by_cases hd : s.destroyed
    · simp only [step, hd]
      exact ⟨⟨hnd, hlt⟩, Nat.le_refl _⟩
    · by_cases hm : s.serveImmediately
      · have hstep : step s .waitFlush = (s, Output.none) := by
          simp [step, hd, hm]
        rw [hstep]
        exact ⟨⟨hnd, hlt⟩, Nat.le_refl _⟩
      · have hstep : step s .waitFlush =
            ({ s with waiters := s.waiters ++ [s.counter], counter := s.counter + 1 },
             ⟨[], [], some s.counter⟩) := by
          simp [step, hd, hm]
        rw [hstep]
        refine ⟨⟨?_, ?_⟩, Nat.le_succ _⟩
        · refine List.Nodup.append hnd (List.nodup_singleton _) ?_
          intro w hw hw₁
          rw [List.mem_singleton] at hw₁
          subst hw₁
          exact absurd (hlt _ hw) (lt_irrefl _)
        · intro w hw
          rcases List.mem_append.mp hw with h | h
          · exact Nat.lt_succ_of_lt (hlt _ h)
          · rw [List.mem_singleton] at h
            subst h
            exact Nat.lt_succ_self _

theorem step_released_sub (s : QState) (o : Op) (w : Nat)
    (hw : w ∈ (step s o).2.released) : w ∈ s.waiters := by
  cases o with
  | queueOp k a =>
    by_cases hd : s.destroyed <;> by_cases hm : s.serveImmediately <;>
      simp [step, hd, hm, Output.none] at hw
  | start =>
    by_cases hd : s.destroyed
    · simp [step, hd, Output.none] at hw
    · simpa [step, hd] using hw
  | stop => by_cases hd : s.destroyed <;> simp [step, hd, Output.none] at hw
  | serve k =>
    by_cases hd : s.destroyed
    · simp [step, hd, Output.none] at hw
    · cases hq : qlookup k s.pending <;> simp [step, hd, hq, Output.none] at hw
  | reset => by_cases hd : s.destroyed <;> simp [step, hd, Output.none] at hw
  | destroy => simpa [step] using hw
  | waitFlush =>
    by_cases hd : s.destroyed <;> by_cases hm : s.serveImmediately <;>
      simp [step, hd, hm, Output.none] at hw

theorem step_not_in_waiters (s : QState) (o : Op) (w : Nat)
    (hnot : w ∉ s.waiters) (hlt : w < s.counter) :
    w ∉ (step s o).1.waiters ∧ w < (step s o).1.counter := by
  cases o with
  | queueOp k a =>
    by_cases hd : s.destroyed <;> by_cases hm : s.serveImmediately <;>
      simp [step, hd, hm] <;> exact ⟨hnot, hlt⟩
  | start => by_cases hd : s.destroyed <;> simp [step, hd, hnot, hlt]
  | stop => by_cases hd : s.destroyed <;> simp [step, hd] <;> exact ⟨hnot, hlt⟩
  | serve k =>
    by_cases hd : s.destroyed
    · simp [step, hd]
      exact ⟨hnot, hlt⟩
    · cases hq : qlookup k s.pending <;> simp [step, hd, hq] <;> exact ⟨hnot, hlt⟩
  | reset => by_cases hd : s.destroyed <;> simp [step, hd] <;> exact ⟨hnot, hlt⟩
  | destroy => simp [step, hlt]
  | waitFlush =>
    by_cases hd : s.destroyed
    · simp only [step, hd]
      exact ⟨by simpa using hnot, hlt⟩
    · by_cases hm : s.serveImmediately
      · have hstep : step s .waitFlush = (s, Output.none) := by
          simp [step, hd, hm]
        rw [hstep]
        exact ⟨hnot, hlt⟩
      · have hstep : step s .waitFlush =
            ({ s with waiters := s.waiters ++ [s.counter], counter := s.counter + 1 },
             ⟨[], [], some s.counter⟩) := by
          simp [step, hd, hm]
        rw [hstep]
        constructor
        · intro hmem
          rcases List.mem_append.mp hmem with h | h
          · exact hnot h
          · rw [List.mem_singleton] at h
            exact absurd h (Nat.ne_of_lt hlt)
        · exact Nat.lt_succ_of_lt hlt

theorem step_start_live (t : QState) (hd : t.destroyed = false) :
    step t .start =
      ({ t with serveImmediately := true, pending := [], waiters := [] },
       ⟨t.pending.map Prod.snd, t.waiters, Option.none⟩) := by
  simp [step, hd]

theorem step_destroy_eq (t : QState) :
    step t .destroy =
      ({ t with destroyed := true, pending := [], waiters := [] },
       ⟨[], t.waiters, Option.none⟩) := rfl

/-- Running operations that contain no `start` and no `destroy` releases no
waiter, keeps every registered waiter pending, preserves liveness of the
queue and the waiter invariant. -/
theorem exec_no_release (L : List Op) (s : QState)
    (hL : ∀ o ∈ L, o ≠ Op.start ∧ o ≠ Op.destroy) :
    releasedAll s L = [] ∧
    (∀ w ∈ s.waiters, w ∈ (exec s L).waiters) ∧
    (s.destroyed = false → (exec s L).destroyed = false) ∧
    (winv s → winv (exec s L)) := by
  induction L generalizing s with
  | nil => exact ⟨rfl, fun w hw => hw, fun h => h, fun h => h⟩
  | cons o rest ih =>
    have ho := hL o (by simp)
    have hrest : ∀ o₁ ∈ rest, o₁ ≠ Op.start ∧ o₁ ≠ Op.destroy :=
      fun o₁ h₁ => hL o₁ (by simp [h₁])
    obtain ⟨ihrel, ihmem, ihdes, ihinv⟩ := ih (step s o).1 hrest
    refine ⟨?_, ?_, ?_, ?_⟩
    · simp only [releasedAll, step_no_release s o ho.1 ho.2, ihrel, List.nil_append]
    · intro w hw
      exact ihmem w (step_keeps_waiter s o w ho.1 ho.2 hw)
    · intro hd
      exact ihdes (step_not_destroy_destroyed s o ho.2 hd)
    · intro hinv
      exact ihinv (step_winv s o hinv).1

/-- A waiter identifier that is below the counter and no longer pending is
never released nor re-registered by any further operations. -/
theorem exec_gone_forever (M : List Op) (t : QState) (w : Nat)
    (hnot : w ∉ t.waiters) (hlt : w < t.counter) :
    w ∉ releasedAll t M ∧ w ∉ (exec t M).waiters := by
  induction M generalizing t with
  | nil => exact ⟨by simp [releasedAll], hnot⟩
  | cons o rest ih =>
    obtain ⟨h₁, h₂⟩ := step_not_in_waiters t o w hnot hlt
    obtain ⟨ih₁, ih₂⟩ := ih (step t o).1 h₁ h₂
    refine ⟨?_, ih₂⟩
    simp only [releasedAll, List.mem_append]
    rintro (h | h)
    · exact hnot (step_released_sub t o w h)
    · exact ih₁ h

end RQ

/-- C1: key coalescing in the RequestQueue. Queuing action `a` and then action
`b` under the same key `k` while in queuing mode leaves exactly one pending
callback for `k`, namely `b`; the pending keys stay pairwise distinct after
each step (at most one pending callback per key at every moment); and on
`start()` the flush invokes `b` exactly once and never invokes `a`. -/
theorem claim_C1_key_coalescing
    (s : RQ.QState) (k : String) (a b : Nat)
    (hmode : s.serveImmediately = false) (hdes : s.destroyed = false)
    (hnk : RQ.keysNodup s)
    (ha : a ∉ s.pending.map Prod.snd) (hb : b ∉ s.pending.map Prod.snd)
    (hab : a ≠ b) :
    RQ.qlookup k ((RQ.step (RQ.step s (.queueOp k a)).1 (.queueOp k b)).1).pending = some b ∧
    RQ.keysNodup (RQ.step s (.queueOp k a)).1 ∧
    RQ.keysNodup (RQ.step (RQ.step s (.queueOp k a)).1 (.queueOp k b)).1 ∧
    ((RQ.step (RQ.step (RQ.step s (.queueOp k a)).1 (.queueOp k b)).1 .start).2).invoked.count b = 1 ∧
    ((RQ.step (RQ.step (RQ.step s (.queueOp k a)).1 (.queueOp k b)).1 .start).2).invoked.count a = 0 := by
  have hs₁ : (RQ.step s (.queueOp k a)).1 =
      { s with pending := RQ.mapSet s.pending k a } := by
    simp [RQ.step, hmode, hdes]
  have hs₂ : (RQ.step (RQ.step s (.queueOp k a)).1 (.queueOp k b)).1 =
      { s with pending := RQ.mapSet s.pending k b } := by
    rw [hs₁]
    simp [RQ.step, hmode, hdes, RQ.mapSet_mapSet]
  have hout : ((RQ.step (RQ.step (RQ.step s (.queueOp k a)).1 (.queueOp k b)).1 .start).2).invoked
      = (RQ.mapSet s.pending k b).map Prod.snd := by
    rw [hs₂]
    simp [RQ.step, hdes]
  refine ⟨?_, ?_, ?_, ?_, ?_⟩
  · rw [hs₂]
    exact RQ.qlookup_mapSet_self s.pending k b
  · rw [hs₁]
    exact RQ.keysNodup_mapSet s.pending k a hnk
  · rw [hs₂]
    exact RQ.keysNodup_mapSet s.pending k b hnk
  · rw [hout]
    exact RQ.count_snd_mapSet_self s.pending k b hb
  · rw [hout]
    refine List.count_eq_zero.mpr ?_
    intro hmem
    rcases RQ.snd_mem_mapSet s.pending k b a hmem with h | h
    · exact hab h
    · exact ha h

/-- Witness for C1 at a concrete state: empty queuing-mode queue, key "paused",
actions 1 then 2. -/
theorem claim_C1_key_coalescing_witness :
    RQ.qlookup "paused"
      ((RQ.step (RQ.step ⟨false, false, [], [], 0⟩ (.queueOp "paused" 1)).1
        (.queueOp "paused" 2)).1).pending = some 2 ∧
    RQ.keysNodup (RQ.step ⟨false, false, [], [], 0⟩ (.queueOp "paused" 1)).1 ∧
    RQ.keysNodup (RQ.step (RQ.step ⟨false, false, [], [], 0⟩ (.queueOp "paused" 1)).1
      (.queueOp "paused" 2)).1 ∧
    ((RQ.step (RQ.step (RQ.step ⟨false, false, [], [], 0⟩ (.queueOp "paused" 1)).1
      (.queueOp "paused" 2)).1 .start).2).invoked.count 2 = 1 ∧
    ((RQ.step (RQ.step (RQ.step ⟨false, false, [], [], 0⟩ (.queueOp "paused" 1)).1
      (.queueOp "paused" 2)).1 .start).2).invoked.count 1 = 0 :=
  claim_C1_key_coalescing ⟨false, false, [], [], 0⟩ "paused" 1 2
    rfl rfl (by simp [RQ.keysNodup]) (by simp) (by simp) (by decide)

/-- C3: flush ordering. Starting from an empty queue in queuing mode, queuing
callbacks under pairwise-distinct keys in a given order invokes nothing, and
`start()` then invokes exactly those callbacks in the original insertion order
(not key order), leaves the queue empty, and flips it to pass-through mode.
Awaiting is modelled by the invocation log being complete when `start`
returns: the output of the `start` step already contains every queued action. -/
theorem claim_C3_flush_ordering
    (s : RQ.QState) (kas : List (String × Nat))
    (hmode : s.serveImmediately = false) (hdes : s.destroyed = false)
    (hpend : s.pending = []) (hnodup : (kas.map Prod.fst).Nodup) :
    RQ.invokedAll s (kas.map fun p => RQ.Op.queueOp p.1 p.2) = [] ∧
    ((RQ.step (RQ.exec s (kas.map fun p => RQ.Op.queueOp p.1 p.2)) .start).2).invoked
      = kas.map Prod.snd ∧
    ((RQ.step (RQ.exec s (kas.map fun p => RQ.Op.queueOp p.1 p.2)) .start).1).pending = [] ∧
    ((RQ.step (RQ.exec s (kas.map fun p => RQ.Op.queueOp p.1 p.2)) .start).1).serveImmediately
      = true := by
  have hfresh : ∀ k ∈ kas.map Prod.fst, k ∉ s.pending.map Prod.fst := by
    intro k _
    simp [hpend]
  obtain ⟨hexec, hinv⟩ := RQ.exec_queueAll kas s hmode hdes hfresh hnodup
  refine ⟨hinv, ?_, ?_, ?_⟩
  · rw [hexec]
    simp [RQ.step, hdes, hpend]
  · rw [hexec]
    simp [RQ.step, hdes]
  · rw [hexec]
    simp [RQ.step, hdes]

/-- Witness for C3 at a concrete trace: keys "volume", "paused", "time" queued
in that order on a fresh queue. -/
theorem claim_C3_flush_ordering_witness :
    RQ.invokedAll ⟨false, false, [], [], 0⟩
      ([("volume", 10), ("paused", 20), ("time", 30)].map fun p => RQ.Op.queueOp p.1 p.2)
        = [] ∧
    ((RQ.step (RQ.exec ⟨false, false, [], [], 0⟩
      ([("volume", 10), ("paused", 20), ("time", 30)].map fun p => RQ.Op.queueOp p.1 p.2))
        .start).2).invoked = [("volume", 10), ("paused", 20), ("time", 30)].map Prod.snd ∧
    ((RQ.step (RQ.exec ⟨false, false, [], [], 0⟩
      ([("volume", 10), ("paused", 20), ("time", 30)].map fun p => RQ.Op.queueOp p.1 p.2))
        .start).1).pending = [] ∧
    ((RQ.step (RQ.exec ⟨false, false, [], [], 0⟩
      ([("volume", 10), ("paused", 20), ("time", 30)].map fun p => RQ.Op.queueOp p.1 p.2))
        .start).1).serveImmediately = true :=
  claim_C3_flush_ordering ⟨false, false, [], [], 0⟩
    [("volume", 10), ("paused", 20), ("time", 30)] rfl rfl rfl (by decide)

/-- C2: pass-through mode invariant. After `start()` is called on a live
queue, and as long as no `stop()` or `reset()` (nor the terminal `destroy()`)
intervenes, at every intermediate moment of any such operation sequence the
queue stays in pass-through mode with size 0, and queuing any callback at that
moment invokes it immediately — exactly once, as the entire output of the
`queue` call — rather than storing it, so the size stays 0 afterward. -/
theorem claim_C2_passthrough_invariant
    (s₀ : RQ.QState) (hdes : s₀.destroyed = false)
    (ops : List RQ.Op) (hw : ∀ o ∈ ops, RQ.windowOp o = true) (n : Nat) :
    (RQ.exec (RQ.step s₀ .start).1 (ops.take n)).serveImmediately = true ∧
    RQ.size (RQ.exec (RQ.step s₀ .start).1 (ops.take n)) = 0 ∧
    (∀ k a,
      (RQ.step (RQ.exec (RQ.step s₀ .start).1 (ops.take n)) (.queueOp k a)).2.invoked = [a] ∧
      RQ.size (RQ.step (RQ.exec (RQ.step s₀ .start).1 (ops.take n)) (.queueOp k a)).1 = 0) := by
  have h₁ : (RQ.step s₀ .start).1.serveImmediately = true := by
    simp [RQ.step, hdes]
  have h₂ : (RQ.step s₀ .start).1.destroyed = false := by
    simp [RQ.step, hdes]
  have h₃ : (RQ.step s₀ .start).1.pending = [] := by
    simp [RQ.step, hdes]
  have hwt : ∀ o ∈ ops.take n, RQ.windowOp o = true :=
    fun o ho => hw o (List.take_subset n ops ho)
  obtain ⟨g₁, g₂, g₃⟩ := RQ.exec_passthrough (ops.take n) (RQ.step s₀ .start).1 h₁ h₂ h₃ hwt
  refine ⟨g₁, by simp [RQ.size, g₃], ?_⟩
  intro k a
  rw [RQ.step_queue_passthrough _ k a g₁ g₂]
  exact ⟨rfl, by simp [RQ.size, g₃]⟩

/-- Witness for C2 at a concrete trace: start a fresh queue, then run a queue
operation and a wait, inspected after one step. -/
theorem claim_C2_passthrough_invariant_witness :
    (RQ.exec (RQ.step ⟨false, false, [("time", 7)], [], 0⟩ .start).1
      ([RQ.Op.queueOp "volume" 3, RQ.Op.waitFlush].take 1)).serveImmediately = true ∧
    RQ.size (RQ.exec (RQ.step ⟨false, false, [("time", 7)], [], 0⟩ .start).1
      ([RQ.Op.queueOp "volume" 3, RQ.Op.waitFlush].take 1)) = 0 ∧
    (∀ k a,
      (RQ.step (RQ.exec (RQ.step ⟨false, false, [("time", 7)], [], 0⟩ .start).1
        ([RQ.Op.queueOp "volume" 3, RQ.Op.waitFlush].take 1)) (.queueOp k a)).2.invoked = [a] ∧
      RQ.size (RQ.step (RQ.exec (RQ.step ⟨false, false, [("time", 7)], [], 0⟩ .start).1
        ([RQ.Op.queueOp "volume" 3, RQ.Op.waitFlush].take 1)) (.queueOp k a)).1 = 0) :=
  claim_C2_passthrough_invariant ⟨false, false, [("time", 7)], [], 0⟩ rfl
    [RQ.Op.queueOp "volume" 3, RQ.Op.waitFlush] (by decide) 1

/-- C4: flush-wait release. If the queue is already in pass-through mode (or
already destroyed), `waitForFlush()` resolves immediately: no waiter is
registered and the state is unchanged. Otherwise it registers a fresh waiter;
along any subsequent operation sequence containing no `start` and no
`destroy`, that waiter is never released (the promise stays pending); at the
first `start` or `destroy` occurring after that sequence the waiter is
released exactly once; and it is never released again by any later
operations. -/
theorem claim_C4_flush_wait_release
    (s : RQ.QState) (hinv : RQ.winv s) :
    ((s.serveImmediately = true ∨ s.destroyed = true) →
      RQ.step s .waitFlush = (s, RQ.Output.none)) ∧
    (s.serveImmediately = false → s.destroyed = false →
      (RQ.step s .waitFlush).2.registered = some s.counter ∧
      (∀ L, (∀ o ∈ L, o ≠ RQ.Op.start ∧ o ≠ RQ.Op.destroy) →
        RQ.releasedAll (RQ.step s .waitFlush).1 L = [] ∧
        (∀ o, o = RQ.Op.start ∨ o = RQ.Op.destroy →
          ((RQ.step (RQ.exec (RQ.step s .waitFlush).1 L) o).2.released.count s.counter = 1 ∧
           ∀ M, s.counter ∉
             RQ.releasedAll (RQ.step (RQ.exec (RQ.step s .waitFlush).1 L) o).1 M)))) := by
  constructor
  · rintro (hm | hd)
    · simp [RQ.step, hm]
    · simp [RQ.step, hd]
  · intro hm hd
    have hstep : RQ.step s .waitFlush =
        ({ s with waiters := s.waiters ++ [s.counter], counter := s.counter + 1 },
         ⟨[], [], some s.counter⟩) := by
      simp [RQ.step, hd, hm]
    refine ⟨by rw [hstep], ?_⟩
    intro L hL
    obtain ⟨hrel, hmem, hdes, hinv₁⟩ := RQ.exec_no_release L (RQ.step s .waitFlush).1 hL
    refine ⟨hrel, ?_⟩
    have hwmem₀ : s.counter ∈ (RQ.step s .waitFlush).1.waiters := by
      rw [hstep]
      simp
    have hdes₀ : (RQ.step s .waitFlush).1.destroyed = false := by
      rw [hstep]
      exact hd
    have hinv₀ : RQ.winv (RQ.step s .waitFlush).1 := (RQ.step_winv s .waitFlush hinv).1
    have hwmem : s.counter ∈ (RQ.exec (RQ.step s .waitFlush).1 L).waiters :=
      hmem s.counter hwmem₀
    have hdes₁ : (RQ.exec (RQ.step s .waitFlush).1 L).destroyed = false := hdes hdes₀
    have hinvt : RQ.winv (RQ.exec (RQ.step s .waitFlush).1 L) := hinv₁ hinv₀
    have hwlt : s.counter < (RQ.exec (RQ.step s .waitFlush).1 L).counter :=
      hinvt.2 s.counter hwmem
    rintro o (rfl | rfl)
    · rw [RQ.step_start_live _ hdes₁]
      refine ⟨List.count_eq_one_of_mem hinvt.1 hwmem, ?_⟩
      intro M
      refine (RQ.exec_gone_forever M _ s.counter ?_ ?_).1
      · exact List.not_mem_nil _
      · exact hwlt
    · rw [RQ.step_destroy_eq]
      refine ⟨List.count_eq_one_of_mem hinvt.1 hwmem, ?_⟩
      intro M
      refine (RQ.exec_gone_forever M _ s.counter ?_ ?_).1
      · exact List.not_mem_nil _
      · exact hwlt

/-- Witness for C4 at a concrete state and trace: fresh queue, one queue
operation between registration and the releasing start, then a trailing stop. -/
theorem claim_C4_flush_wait_release_witness :
    (((⟨false, false, [], [], 0⟩ : RQ.QState).serveImmediately = true ∨
        (⟨false, false, [], [], 0⟩ : RQ.QState).destroyed = true) →
      RQ.step ⟨false, false, [], [], 0⟩ .waitFlush =
        (⟨false, false, [], [], 0⟩, RQ.Output.none)) ∧
    ((⟨false, false, [], [], 0⟩ : RQ.QState).serveImmediately = false →
      (⟨false, false, [], [], 0⟩ : RQ.QState).destroyed = false →
      (RQ.step (⟨false, false, [], [], 0⟩ : RQ.QState) .waitFlush).2.registered =
        some (⟨false, false, [], [], 0⟩ : RQ.QState).counter ∧
      (∀ L, (∀ o ∈ L, o ≠ RQ.Op.start ∧ o ≠ RQ.Op.destroy) →
        RQ.releasedAll (RQ.step (⟨false, false, [], [], 0⟩ : RQ.QState) .waitFlush).1 L = [] ∧
        (∀ o, o = RQ.Op.start ∨ o = RQ.Op.destroy →
          ((RQ.step (RQ.exec (RQ.step (⟨false, false, [], [], 0⟩ : RQ.QState) .waitFlush).1 L)
              o).2.released.count (⟨false, false, [], [], 0⟩ : RQ.QState).counter = 1 ∧
           ∀ M, (⟨false, false, [], [], 0⟩ : RQ.QState).counter ∉
             RQ.releasedAll
               (RQ.step (RQ.exec (RQ.step (⟨false, false, [], [], 0⟩ : RQ.QState) .waitFlush).1 L)
                 o).1 M)))) :=
  claim_C4_flush_wait_release ⟨false, false, [], [], 0⟩ ⟨List.nodup_nil, by simp⟩

namespace CP

theorem eraseKey_cons_self (k : String) (a : Nat) (rest : List (String × Nat))
    (h : k ∉ rest.map Prod.fst) : RQ.eraseKey k ((k, a) :: rest) = rest := by
  unfold RQ.eraseKey
  rw [List.filter_cons]
  simp only [decide_not]
  have hhead : ¬ (k, a).1 = k ↔ False := by simp
  rw [if_neg (by simp)]
  refine List.filter_eq_self.mpr ?_
  intro p hp
  have : p.1 ≠ k := by
    intro hpk
    exact h (by simpa [hpk] using List.mem_map_of_mem Prod.fst hp)
  simpa using this

theorem smr_cons (beh : Nat → Outcome) (s : PState) (k : String) (a : Nat)
    (rest : List (String × Nat))
    (hq : s.requestQueue = (k, a) :: rest) (hk : k ∉ rest.map Prod.fst) :
    safelyMakeRequest beh s k =
      (match beh a with
       | .ok => { s with invoked := s.invoked ++ [a], requestQueue := rest }
       | .err e =>
          { s with invoked := s.invoked ++ [a], requestQueue := rest,
                   ctxError := some e, errorEvents := s.errorEvents ++ [e] }) := by
  unfold safelyMakeRequest
  rw [hq]
  have hlk : RQ.qlookup k ((k, a) :: rest) = some a := by simp [RQ.qlookup]
  rw [hlk]
  cases hb : beh a with
  | ok => simp [hb, eraseKey_cons_self k a rest hk]
  | err e => simp [hb, eraseKey_cons_self k a rest hk]

theorem flush_fold (beh : Nat → Outcome) (q : List (String × Nat)) :
    ∀ s : PState, s.requestQueue = q → (q.map Prod.fst).Nodup →
    ((q.map Prod.fst).foldl (safelyMakeRequest beh) s).invoked
        = s.invoked ++ q.map Prod.snd ∧
    ((q.map Prod.fst).foldl (safelyMakeRequest beh) s).errorEvents
        = s.errorEvents ++ errsOf beh (q.map Prod.snd) ∧
    ((q.map Prod.fst).foldl (safelyMakeRequest beh) s).ctxError
        = (errsOf beh (q.map Prod.snd)).foldl (fun _ e => some e) s.ctxError ∧
    ((q.map Prod.fst).foldl (safelyMakeRequest beh) s).requestQueue = [] := by
  induction q with
  | nil =>
    intro s hq _
    exact ⟨by simp, by simp [errsOf], by simp [errsOf], by simpa using hq⟩
  | cons hd rest ih =>
    intro s hq hnd
    obtain ⟨k, a⟩ := hd
    have hk : k ∉ rest.map Prod.fst := (List.nodup_cons.mp (by simpa using hnd)).1
    have hnd' : (rest.map Prod.fst).Nodup := (List.nodup_cons.mp (by simpa using hnd)).2
    have hsmr := smr_cons beh s k a rest hq hk
    cases hb : beh a with
    | ok =>
      rw [hb] at hsmr
      have hfold : ((((k, a) :: rest).map Prod.fst).foldl (safelyMakeRequest beh) s)
          = (rest.map Prod.fst).foldl (safelyMakeRequest beh)
              { s with invoked := s.invoked ++ [a], requestQueue := rest } := by
        simp only [List.map_cons, List.foldl_cons, hsmr]
      obtain ⟨h₁, h₂, h₃, h₄⟩ := ih { s with invoked := s.invoked ++ [a], requestQueue := rest }
        rfl hnd'
      rw [hfold]
      refine ⟨?_, ?_, ?_, h₄⟩
      · rw [h₁]
        simp
      · rw [h₂]
        simp [errsOf, hb]
      · rw [h₃]
        simp [errsOf, hb]
    | err e =>
      rw [hb] at hsmr
      have hfold : ((((k, a) :: rest).map Prod.fst).foldl (safelyMakeRequest beh) s)
          = (rest.map Prod.fst).foldl (safelyMakeRequest beh)
              { s with invoked := s.invoked ++ [a], requestQueue := rest,
                       ctxError := some e, errorEvents := s.errorEvents ++ [e] } := by
        simp only [List.map_cons, List.foldl_cons, hsmr]
      obtain ⟨h₁, h₂, h₃, h₄⟩ := ih
        { s with invoked := s.invoked ++ [a], requestQueue := rest,
                 ctxError := some e, errorEvents := s.errorEvents ++ [e] } rfl hnd'
      rw [hfold]
      refine ⟨?_, ?_, ?_, h₄⟩
      · rw [h₁]
        simp
      · rw [h₂]
        simp [errsOf, hb]
      · rw [h₃]
        simp [errsOf, hb]

theorem overwrite_foldl_ne_none (l : List Nat) :
    ∀ init : Option Nat, init ≠ Option.none →
      l.foldl (fun _ x => some x) init ≠ Option.none := by
  induction l with
  | nil => exact fun init h => by simpa using h
  | cons x rest ih => exact fun init _ => by simpa using ih (some x) (by simp)

end CP

/-- C5: error containment during flush. For any batch of queued actions,
`flushRequestQueue` invokes every action of the batch in order — failures do
not abort the remaining batch — returns normally (errors are caught by the
embedded try/catch of `safelyMakeRequest`, never re-thrown to the caller),
dispatches a VdsErrorEvent carrying each error that occurred, records an error
into the context error field whenever some action failed, and leaves the queue
empty. -/
theorem claim_C5_flush_error_containment (beh : Nat → CP.Outcome) (s : CP.PState)
    (hnd : (s.requestQueue.map Prod.fst).Nodup) :
    (CP.flushRequestQueue beh s).invoked = s.invoked ++ s.requestQueue.map Prod.snd ∧
    (CP.flushRequestQueue beh s).requestQueue = [] ∧
    (CP.flushRequestQueue beh s).errorEvents
        = s.errorEvents ++ CP.errsOf beh (s.requestQueue.map Prod.snd) ∧
    (∀ k a e, (k, a) ∈ s.requestQueue → beh a = CP.Outcome.err e →
      e ∈ (CP.flushRequestQueue beh s).errorEvents) ∧
    ((∃ p ∈ s.requestQueue, ∃ e, beh p.2 = CP.Outcome.err e) →
      (CP.flushRequestQueue beh s).ctxError ≠ Option.none) := by
  obtain ⟨h₁, h₂, h₃, h₄⟩ := CP.flush_fold beh s.requestQueue s rfl hnd
  refine ⟨?_, rfl, ?_, ?_, ?_⟩
  · exact h₁
  · exact h₂
  · intro k a e hmem hbe
    show e ∈ ((s.requestQueue.map Prod.fst).foldl (CP.safelyMakeRequest beh) s).errorEvents
    rw [h₂]
    refine List.mem_append_right _ ?_
    refine List.mem_filterMap.mpr ⟨a, ?_, by simp [hbe]⟩
    exact List.mem_map.mpr ⟨(k, a), hmem, rfl⟩
  · rintro ⟨p, hp, e, hpe⟩
    show ((s.requestQueue.map Prod.fst).foldl (CP.safelyMakeRequest beh) s).ctxError
      ≠ Option.none
    rw [h₃]
    have hne : CP.errsOf beh (s.requestQueue.map Prod.snd) ≠ [] := by
      have : e ∈ CP.errsOf beh (s.requestQueue.map Prod.snd) :=
        List.mem_filterMap.mpr ⟨p.2, List.mem_map.mpr ⟨p, hp, rfl⟩, by simp [hpe]⟩
      exact List.ne_nil_of_mem this
    cases herrs : CP.errsOf beh (s.requestQueue.map Prod.snd) with
    | nil => exact absurd herrs hne
    | cons x rest =>
      simp only [List.foldl_cons]
      exact CP.overwrite_foldl_ne_none rest (some x) (by simp)

/-- Witness for C5 at a concrete batch: three queued actions, the middle one
failing with error 9. -/
theorem claim_C5_flush_error_containment_witness :
    (CP.flushRequestQueue (fun a => if a = 2 then .err 9 else .ok)
        ⟨[("paused", 1), ("time", 2), ("volume", 3)], Option.none, [], []⟩).invoked
      = (⟨[("paused", 1), ("time", 2), ("volume", 3)], Option.none, [], []⟩ :
          CP.PState).invoked ++
        ([("paused", 1), ("time", 2), ("volume", 3)] : List (String × Nat)).map Prod.snd ∧
    (CP.flushRequestQueue (fun a => if a = 2 then .err 9 else .ok)
        ⟨[("paused", 1), ("time", 2), ("volume", 3)], Option.none, [], []⟩).requestQueue = [] ∧
    (CP.flushRequestQueue (fun a => if a = 2 then .err 9 else .ok)
        ⟨[("paused", 1), ("time", 2), ("volume", 3)], Option.none, [], []⟩).errorEvents
      = (⟨[("paused", 1), ("time", 2), ("volume", 3)], Option.none, [], []⟩ :
          CP.PState).errorEvents ++
        CP.errsOf (fun a => if a = 2 then .err 9 else .ok)
          (([("paused", 1), ("time", 2), ("volume", 3)] : List (String × Nat)).map Prod.snd) ∧
    (∀ k a e, (k, a) ∈ (⟨[("paused", 1), ("time", 2), ("volume", 3)],
        Option.none, [], []⟩ : CP.PState).requestQueue →
      (fun a => if a = 2 then CP.Outcome.err 9 else CP.Outcome.ok) a = CP.Outcome.err e →
      e ∈ (CP.flushRequestQueue (fun a => if a = 2 then .err 9 else .ok)
        ⟨[("paused", 1), ("time", 2), ("volume", 3)], Option.none, [], []⟩).errorEvents) ∧
    ((∃ p ∈ (⟨[("paused", 1), ("time", 2), ("volume", 3)],
        Option.none, [], []⟩ : CP.PState).requestQueue, ∃ e,
        (fun a => if a = 2 then CP.Outcome.err 9 else CP.Outcome.ok) p.2 = CP.Outcome.err e) →
      (CP.flushRequestQueue (fun a => if a = 2 then .err 9 else .ok)
        ⟨[("paused", 1), ("time", 2), ("volume", 3)], Option.none, [], []⟩).ctxError
          ≠ Option.none) :=
  claim_C5_flush_error_containment (fun a => if a = 2 then .err 9 else .ok)
    ⟨[("paused", 1), ("time", 2), ("volume", 3)], Option.none, [], []⟩ (by decide)

/-- C6: soft reset boundary. For every media context record, the soft reset
sets `duration` back to its default NaN, resets exactly the per-source
properties of the reset set to their defaults, and leaves `volume` — and
every other property outside the reset set — with exactly the value it had
immediately before the reset. -/
theorem claim_C6_soft_reset_boundary (ctx : String → Media.MVal) :
    Media.softResetMediaContext ctx "duration" = Media.MVal.nan ∧
    Media.softResetMediaContext ctx "volume" = ctx "volume" ∧
    (∀ p, p ∈ Media.mediaPropsToResetWhenSrcChanges →
      Media.softResetMediaContext ctx p = Media.initialValue p) ∧
    (∀ p, p ∉ Media.mediaPropsToResetWhenSrcChanges →
      Media.softResetMediaContext ctx p = ctx p) := by
  have hsub : ∀ p, p ∈ Media.mediaPropsToResetWhenSrcChanges →
      p ∈ Media.mediaContextKeys :=
    fun p hp => List.mem_append_left _ hp
  have hreset : ∀ p, p ∈ Media.mediaPropsToResetWhenSrcChanges →
      Media.softResetMediaContext ctx p = Media.initialValue p := by
    intro p hp
    unfold Media.softResetMediaContext
    exact if_pos ⟨hsub p hp, hp⟩
  have hkeep : ∀ p, p ∉ Media.mediaPropsToResetWhenSrcChanges →
      Media.softResetMediaContext ctx p = ctx p := by
    intro p hp
    unfold Media.softResetMediaContext
    exact if_neg (fun hc => hp hc.2)
  refine ⟨?_, ?_, hreset, hkeep⟩
  · rw [hreset "duration" (by simp [Media.mediaPropsToResetWhenSrcChanges])]
    rfl
  · exact hkeep "volume" (by simp [Media.mediaPropsToResetWhenSrcChanges])

/-- Witness for C6 at a concrete context record that has a finite duration
and a non-default volume. -/
theorem claim_C6_soft_reset_boundary_witness :
    Media.softResetMediaContext
      (fun p => if p = "volume" then Media.MVal.num (1/2) else Media.MVal.num 42)
      "duration" = Media.MVal.nan ∧
    Media.softResetMediaContext
      (fun p => if p = "volume" then Media.MVal.num (1/2) else Media.MVal.num 42)
      "volume" =
      (fun p => if p = "volume" then Media.MVal.num (1/2) else Media.MVal.num 42) "volume" ∧
    (∀ p, p ∈ Media.mediaPropsToResetWhenSrcChanges →
      Media.softResetMediaContext
        (fun p => if p = "volume" then Media.MVal.num (1/2) else Media.MVal.num 42) p
        = Media.initialValue p) ∧
    (∀ p, p ∉ Media.mediaPropsToResetWhenSrcChanges →
      Media.softResetMediaContext
        (fun p => if p = "volume" then Media.MVal.num (1/2) else Media.MVal.num 42) p
        = (fun p => if p = "volume" then Media.MVal.num (1/2) else Media.MVal.num 42) p) :=
  claim_C6_soft_reset_boundary
    (fun p => if p = "volume" then Media.MVal.num (1/2) else Media.MVal.num 42)

/-- C7: first-load reset skip. With a live (non-destroyed) media request
queue: the first source-change notification of a connection cycle only sets
the has-flushed-once flag — the queue (mode and pending entries alike) and
the context record are returned unchanged, so the initially queued property
assignments are preserved; every subsequent source change puts the queue back
into queuing mode with no pending entries, invokes nothing, and soft-resets
the context record; and disconnecting clears the flag, re-arming the skip for
the next connection cycle. -/
theorem claim_C7_first_load_reset_skip (s : Media.MPState)
    (hqd : s.mediaRequestQueue.destroyed = false) :
    (s.hasFlushedMediaRequestQueueOnce = false →
      Media.handleMediaSrcChange s =
        ({ s with hasFlushedMediaRequestQueueOnce := true }, RQ.Output.none)) ∧
    (s.hasFlushedMediaRequestQueueOnce = true →
      (Media.handleMediaSrcChange s).1.mediaRequestQueue.serveImmediately = false ∧
      (Media.handleMediaSrcChange s).1.mediaRequestQueue.pending = [] ∧
      (Media.handleMediaSrcChange s).2.invoked = [] ∧
      (Media.handleMediaSrcChange s).1.ctx = Media.softResetMediaContext s.ctx ∧
      (Media.handleMediaSrcChange s).1.hasFlushedMediaRequestQueueOnce = true) ∧
    (Media.disconnectedCallback s).1.hasFlushedMediaRequestQueueOnce = false := by
  refine ⟨?_, ?_, ?_⟩
  · intro h
    simp [Media.handleMediaSrcChange, h]
  · intro h
    have hreset : RQ.step { s.mediaRequestQueue with serveImmediately := false } .reset =
        ({ s.mediaRequestQueue with serveImmediately := false, pending := [] },
         RQ.Output.none) := by
      simp [RQ.step, hqd]
    simp [Media.handleMediaSrcChange, h, hreset, RQ.Output.none]
  · simp [Media.disconnectedCallback]

/-- Witness for C7 at a concrete provider state with one pending queue entry,
evaluated in both phases: the flag starts false here, so the first conjunct
applies with its hypothesis discharged. -/
theorem claim_C7_first_load_reset_skip_witness :
    ((⟨false, ⟨false, false, [("paused", 1)], [], 0⟩, fun _ => Media.MVal.nan⟩ :
        Media.MPState).hasFlushedMediaRequestQueueOnce = false →
      Media.handleMediaSrcChange
        ⟨false, ⟨false, false, [("paused", 1)], [], 0⟩, fun _ => Media.MVal.nan⟩ =
        ({ (⟨false, ⟨false, false, [("paused", 1)], [], 0⟩, fun _ => Media.MVal.nan⟩ :
            Media.MPState) with hasFlushedMediaRequestQueueOnce := true },
         RQ.Output.none)) ∧
    ((⟨false, ⟨false, false, [("paused", 1)], [], 0⟩, fun _ => Media.MVal.nan⟩ :
        Media.MPState).hasFlushedMediaRequestQueueOnce = true →
      (Media.handleMediaSrcChange
        ⟨false, ⟨false, false, [("paused", 1)], [], 0⟩,
          fun _ => Media.MVal.nan⟩).1.mediaRequestQueue.serveImmediately = false ∧
      (Media.handleMediaSrcChange
        ⟨false, ⟨false, false, [("paused", 1)], [], 0⟩,
          fun _ => Media.MVal.nan⟩).1.mediaRequestQueue.pending = [] ∧
      (Media.handleMediaSrcChange
        ⟨false, ⟨false, false, [("paused", 1)], [], 0⟩,
          fun _ => Media.MVal.nan⟩).2.invoked = [] ∧
      (Media.handleMediaSrcChange
        ⟨false, ⟨false, false, [("paused", 1)], [], 0⟩,
          fun _ => Media.MVal.nan⟩).1.ctx =
        Media.softResetMediaContext (fun _ => Media.MVal.nan) ∧
      (Media.handleMediaSrcChange
        ⟨false, ⟨false, false, [("paused", 1)], [], 0⟩,
          fun _ => Media.MVal.nan⟩).1.hasFlushedMediaRequestQueueOnce = true) ∧
    (Media.disconnectedCallback
      ⟨false, ⟨false, false, [("paused", 1)], [], 0⟩,
        fun _ => Media.MVal.nan⟩).1.hasFlushedMediaRequestQueueOnce = false :=
  claim_C7_first_load_reset_skip
    ⟨false, ⟨false, false, [("paused", 1)], [], 0⟩, fun _ => Media.MVal.nan⟩ rfl

namespace Store

theorem map_fst_pair {T : Type} (v : T) (l : List Nat) :
    ((l.map fun i => (i, v)).map Prod.fst) = l := by
  induction l with
  | nil => rfl
  | cons x rest ih => simp [ih]

/-- Along any operation sequence that never unsubscribes a given registered
subscriber, that subscriber stays registered, and the subscriber list stays
duplicate-free with all identifiers below the freshness counter. -/
theorem sexec_keeps_sub {T : Type} [DecidableEq T] (L : List (SOp T)) (t : SStore T)
    (i : Nat) (hmem : i ∈ t.subs) (hnd : t.subs.Nodup)
    (hb : ∀ j ∈ t.subs, j < t.counter)
    (hL : ∀ o ∈ L, o ≠ SOp.unsubOp i) :
    i ∈ (sexec t L).subs ∧ (sexec t L).subs.Nodup ∧
      ∀ j ∈ (sexec t L).subs, j < (sexec t L).counter := by
  induction L generalizing t with
  | nil => exact ⟨hmem, hnd, hb⟩
  | cons o rest ih =>
    have hrest : ∀ o₁ ∈ rest, o₁ ≠ SOp.unsubOp i := fun o₁ h₁ => hL o₁ (by simp [h₁])
    have hstep : i ∈ (sstep t o).1.subs ∧ (sstep t o).1.subs.Nodup ∧
        ∀ j ∈ (sstep t o).1.subs, j < (sstep t o).1.counter := by
      cases o with
      | setOp v =>
        by_cases hv : t.value = v
        · simpa [sstep, setValue, hv] using ⟨hmem, hnd, hb⟩
        · simpa [sstep, setValue, hv] using ⟨hmem, hnd, hb⟩
      | subOp =>
        refine ⟨?_, ?_, ?_⟩
        · simp [sstep, subscribe, hmem]
        · simp only [sstep, subscribe]
          refine List.Nodup.append hnd (List.nodup_singleton _) ?_
          intro j hj hj₁
          rw [List.mem_singleton] at hj₁
          subst hj₁
          exact absurd (hb _ hj) (lt_irrefl _)
        · intro j hj
          simp only [sstep, subscribe] at hj ⊢
          rcases List.mem_append.mp hj with h | h
          · exact Nat.lt_succ_of_lt (hb _ h)
          · rw [List.mem_singleton] at h
            subst h
            exact Nat.lt_succ_self _
      | unsubOp j =>
        have hji : j ≠ i := by
          intro h
          subst h
          exact absurd rfl (hL (SOp.unsubOp j) (by simp))
        refine ⟨?_, ?_, ?_⟩
        · simp only [sstep, unsubscribe]
          refine List.mem_filter.mpr ⟨hmem, ?_⟩
          simpa using Ne.symm hji
        · exact List.Nodup.filter _ hnd
        · intro j₁ hj₁
          exact hb _ (List.mem_of_mem_filter hj₁)
    exact ih (sstep t o).1 hstep.1 hstep.2.1 hstep.2.2 hrest

end Store

/-- C8: subscribe replay. Subscribing to a store field invokes the new
subscriber exactly once, immediately, with the field's current value — even
though no change has occurred — as the entire notification log of the
`subscribe` call; the subscriber stays registered (in a duplicate-free
subscriber list) across any operations that never unsubscribe it; while
registered, every value change notifies it exactly once with the new value;
and once unsubscribed — or never notified while unregistered — no set
notification reaches it. -/
theorem claim_C8_subscribe_replay {T : Type} [DecidableEq T] (s : Store.SStore T)
    (hnd : s.subs.Nodup) (hb : ∀ j ∈ s.subs, j < s.counter) :
    (Store.subscribe s).2.2 = [((Store.subscribe s).2.1, s.value)] ∧
    (∀ L : List (Store.SOp T),
      (∀ o ∈ L, o ≠ Store.SOp.unsubOp (Store.subscribe s).2.1) →
      (Store.subscribe s).2.1 ∈ (Store.sexec (Store.subscribe s).1 L).subs ∧
      (Store.sexec (Store.subscribe s).1 L).subs.Nodup) ∧
    (∀ (t : Store.SStore T) (v : T),
      (Store.subscribe s).2.1 ∈ t.subs → t.subs.Nodup → t.value ≠ v →
      (((Store.sstep t (Store.SOp.setOp v)).2.map Prod.fst).count
        (Store.subscribe s).2.1 = 1 ∧
       ((Store.subscribe s).2.1, v) ∈ (Store.sstep t (Store.SOp.setOp v)).2) ∧
      (Store.sstep t (Store.SOp.setOp v)).1.value = v) ∧
    (∀ (t : Store.SStore T) (v : T), (Store.subscribe s).2.1 ∉ t.subs →
      ∀ p ∈ (Store.sstep t (Store.SOp.setOp v)).2, p.1 ≠ (Store.subscribe s).2.1) ∧
    (∀ t : Store.SStore T,
      (Store.subscribe s).2.1 ∉ (Store.unsubscribe t (Store.subscribe s).2.1).subs) := by
  refine ⟨rfl, ?_, ?_, ?_, ?_⟩
  · intro L hL
    have h := Store.sexec_keeps_sub L (Store.subscribe s).1 s.counter
      (by simp [Store.subscribe])
      (by
        simp only [Store.subscribe]
        refine List.Nodup.append hnd (List.nodup_singleton _) ?_
        intro j hj hj₁
        rw [List.mem_singleton] at hj₁
        subst hj₁
        exact absurd (hb _ hj) (lt_irrefl _))
      (by
        intro j hj
        simp only [Store.subscribe] at hj ⊢
        rcases List.mem_append.mp hj with h | h
        · exact Nat.lt_succ_of_lt (hb _ h)
        · rw [List.mem_singleton] at h
          subst h
          exact Nat.lt_succ_self _)
      hL
    exact ⟨h.1, h.2.1⟩
  · intro t v hmem hnd₁ hv
    have hlog : (Store.sstep t (Store.SOp.setOp v)).2 = t.subs.map fun i => (i, v) := by
      simp [Store.sstep, Store.setValue, hv]
    refine ⟨⟨?_, ?_⟩, ?_⟩
    · rw [hlog]
      have hfst : ((t.subs.map fun i => (i, v)).map Prod.fst) = t.subs :=
        Store.map_fst_pair v t.subs
      rw [hfst]
      exact List.count_eq_one_of_mem hnd₁ hmem
    · rw [hlog]
      exact List.mem_map.mpr ⟨s.counter, hmem, rfl⟩
    · simp [Store.sstep, Store.setValue, hv]
  · intro t v hnot p hp
    by_cases hv : t.value = v
    · simp [Store.sstep, Store.setValue, hv] at hp
    · have hlog : (Store.sstep t (Store.SOp.setOp v)).2 = t.subs.map fun i => (i, v) := by
        simp [Store.sstep, Store.setValue, hv]
      rw [hlog] at hp
      obtain ⟨i, hi, rfl⟩ := List.mem_map.mp hp
      intro h
      rw [show (i, v).1 = i from rfl] at h
      subst h
      exact hnot hi
  · intro t
    intro hmem
    have := (List.mem_filter.mp hmem).2
    simp at this

/-- Witness for C8 at a concrete store over naturals with one existing
subscriber. -/
theorem claim_C8_subscribe_replay_witness :
    (Store.subscribe (⟨5, [0], 1⟩ : Store.SStore Nat)).2.2 =
      [((Store.subscribe (⟨5, [0], 1⟩ : Store.SStore Nat)).2.1, 5)] ∧
    (∀ L : List (Store.SOp Nat),
      (∀ o ∈ L, o ≠ Store.SOp.unsubOp
        (Store.subscribe (⟨5, [0], 1⟩ : Store.SStore Nat)).2.1) →
      (Store.subscribe (⟨5, [0], 1⟩ : Store.SStore Nat)).2.1 ∈
        (Store.sexec (Store.subscribe (⟨5, [0], 1⟩ : Store.SStore Nat)).1 L).subs ∧
      (Store.sexec (Store.subscribe (⟨5, [0], 1⟩ : Store.SStore Nat)).1 L).subs.Nodup) ∧
    (∀ (t : Store.SStore Nat) (v : Nat),
      (Store.subscribe (⟨5, [0], 1⟩ : Store.SStore Nat)).2.1 ∈ t.subs →
      t.subs.Nodup → t.value ≠ v →
      (((Store.sstep t (Store.SOp.setOp v)).2.map Prod.fst).count
        (Store.subscribe (⟨5, [0], 1⟩ : Store.SStore Nat)).2.1 = 1 ∧
       ((Store.subscribe (⟨5, [0], 1⟩ : Store.SStore Nat)).2.1, v) ∈
         (Store.sstep t (Store.SOp.setOp v)).2) ∧
      (Store.sstep t (Store.SOp.setOp v)).1.value = v) ∧
    (∀ (t : Store.SStore Nat) (v : Nat),
      (Store.subscribe (⟨5, [0], 1⟩ : Store.SStore Nat)).2.1 ∉ t.subs →
      ∀ p ∈ (Store.sstep t (Store.SOp.setOp v)).2,
        p.1 ≠ (Store.subscribe (⟨5, [0], 1⟩ : Store.SStore Nat)).2.1) ∧
    (∀ t : Store.SStore Nat,
      (Store.subscribe (⟨5, [0], 1⟩ : Store.SStore Nat)).2.1 ∉
        (Store.unsubscribe t
          (Store.subscribe (⟨5, [0], 1⟩ : Store.SStore Nat)).2.1).subs) :=
  claim_C8_subscribe_replay (⟨5, [0], 1⟩ : Store.SStore Nat)
    (by simp) (by simp)

/-- C9: idempotent no-op write. Setting a field to a value it already holds
notifies nobody; after any `set` call with value `v`, an immediately repeated
`set` with the same `v` notifies nobody (so two consecutive equal writes
notify each subscriber exactly once, for the first call only, when the value
actually changed); and a changing write notifies every subscriber exactly
once, in subscription order. -/
theorem claim_C9_idempotent_noop_write {T : Type} [DecidableEq T]
    (s : Store.SStore T) (v : T) (hnd : s.subs.Nodup) :
    (Store.setValue (Store.setValue s v).1 v).2 = [] ∧
    (s.value = v → (Store.setValue s v).2 = []) ∧
    (s.value ≠ v →
      (Store.setValue s v).2 = s.subs.map (fun i => (i, v)) ∧
      ∀ i ∈ s.subs, ((Store.setValue s v).2.map Prod.fst).count i = 1 ∧
        (i, v) ∈ (Store.setValue s v).2) := by
  refine ⟨?_, ?_, ?_⟩
  · by_cases hv : s.value = v
    · have h₁ : Store.setValue s v = (s, []) := by
        simp [Store.setValue, hv]
      rw [h₁]
      simp [Store.setValue, hv]
    · have h₁ : (Store.setValue s v).1 = { s with value := v } := by
        simp [Store.setValue, hv]
      rw [h₁]
      simp [Store.setValue]
  · intro hv
    simp [Store.setValue, hv]
  · intro hv
    have hlog : (Store.setValue s v).2 = s.subs.map fun i => (i, v) := by
      simp [Store.setValue, hv]
    refine ⟨hlog, ?_⟩
    intro i hi
    rw [hlog]
    constructor
    · rw [Store.map_fst_pair v s.subs]
      exact List.count_eq_one_of_mem hnd hi
    · exact List.mem_map.mpr ⟨i, hi, rfl⟩

/-- Witness for C9 at a concrete store over naturals with two subscribers and
a changing write. -/
theorem claim_C9_idempotent_noop_write_witness :
    (Store.setValue (Store.setValue (⟨3, [0, 1], 2⟩ : Store.SStore Nat) 4).1 4).2 = [] ∧
    ((⟨3, [0, 1], 2⟩ : Store.SStore Nat).value = 4 →
      (Store.setValue (⟨3, [0, 1], 2⟩ : Store.SStore Nat) 4).2 = []) ∧
    ((⟨3, [0, 1], 2⟩ : Store.SStore Nat).value ≠ 4 →
      (Store.setValue (⟨3, [0, 1], 2⟩ : Store.SStore Nat) 4).2 =
        ([0, 1] : List Nat).map (fun i => (i, 4)) ∧
      ∀ i ∈ ([0, 1] : List Nat),
        ((Store.setValue (⟨3, [0, 1], 2⟩ : Store.SStore Nat) 4).2.map Prod.fst).count i = 1 ∧
        (i, 4) ∈ (Store.setValue (⟨3, [0, 1], 2⟩ : Store.SStore Nat) 4).2) :=
  claim_C9_idempotent_noop_write (⟨3, [0, 1], 2⟩ : Store.SStore Nat) 4 (by simp)

/-- C10: the canPlayType override of HlsElement returns exactly the inherited
VideoElement result for every input type string — including the HLS MIME
types, for which the conditional support expression is evaluated but its
result discarded (no return statement), so the override never reports HLS
types as playable on its own. -/
theorem claim_C10_hls_canPlayType_inherited :
    ∀ (superCanPlayType : String → Hls.CanPlay) (supported : Bool) (t : String),
      Hls.hlsCanPlayType superCanPlayType supported t = superCanPlayType t :=
  fun _ _ _ => rfl

end Vidstack
